import Mathlib

/-!
Verification development for the `repo_read_pull_request_file_diffs` tool of
`src/tools/repos.ts`: line splitting, region classification over the output of
the line-diff routine, context windowing (`extractContext`), the no-difference
fallback rendering, per-file error handling and pagination.

Shallow embedding conventions:
* JavaScript `Array.prototype.slice` is modelled by `jsSlice` with the exact
  negative-index clamping semantics of JS.
* JavaScript `String.prototype.split("\n")` is modelled by `splitLines`.
* The external `diffLines` routine (npm `diff` package) is not part of this
  repository; it is modelled from the spec: a line-granularity LCS alignment
  emitting maximal runs, removed-before-added tie-break, adjacent same-kind
  runs coalesced (spec sections 4.2 and 9).  Its output is a list of parts
  `{added, removed, count}` exactly as consumed by the source loop.
-/

/-- Model of JavaScript `Array.prototype.slice(a, b)`: negative indices count
from the end of the array, and both bounds are clamped to `[0, length]`. -/
def jsSlice (l : List α) (a b : Int) : List α :=
  let n : Int := l.length
  let lo : Nat := (if a < 0 then max (n + a) 0 else min a n).toNat
  let hi : Nat := (if b < 0 then max (n + b) 0 else min b n).toNat
  (l.take hi).drop lo

/-- Character-level worker for `splitLines`: splits a character list at each
line feed, always yielding at least one (possibly empty) segment, exactly as
JavaScript `split("\n")` does. -/
def splitLinesChars : List Char → List (List Char)
  | [] => [[]]
  | c :: rest =>
    match splitLinesChars rest with
    | [] => [[]]
    | l :: ls => if c = '\n' then [] :: l :: ls else (c :: l) :: ls

/-- Model of `content.split("\n")` from `repos.ts` lines 245-246. -/
def splitLines (s : String) : List String :=
  (splitLinesChars s.data).map String.mk

/-- Elementary line-diff operations: keep a common line, delete a line of the
before sequence, insert a line of the after sequence. -/
inductive DiffOp
  | keep
  | del
  | ins
deriving DecidableEq, Repr

/-- Length of a longest common subsequence of two line lists; used by the
model of the external diff routine to pick maximal alignments. -/
def lcsLen : List String → List String → Nat
  | [], _ => 0
  | _ :: _, [] => 0
  | x :: xs, y :: ys =>
    if x = y then lcsLen xs ys + 1
    else max (lcsLen xs (y :: ys)) (lcsLen (x :: xs) ys)
termination_by xs ys => xs.length + ys.length

/-- Modelled from the spec: the line alignment performed by the external
`diffLines` library (spec section 4.2) — an LCS-maximal walk over both line
sequences with the removed-before-added tie-break. -/
def diffOps : List String → List String → List DiffOp
  | [], [] => []
  | [], _ :: ys => .ins :: diffOps [] ys
  | _ :: xs, [] => .del :: diffOps xs []
  | x :: xs, y :: ys =>
    if x = y then .keep :: diffOps xs ys
    else if lcsLen (x :: xs) ys ≤ lcsLen xs (y :: ys) then .del :: diffOps xs (y :: ys)
    else .ins :: diffOps (x :: xs) ys
termination_by xs ys => xs.length + ys.length

/-- One element of the `diffLines` result as consumed by the source loop:
`added`/`removed` flags plus the number of lines (`part.count`). -/
structure DiffPart where
  added : Bool
  removed : Bool
  count : Nat
deriving DecidableEq, Repr

/-- Flags corresponding to each elementary operation: kept lines carry neither
flag, deleted lines the `removed` flag, inserted lines the `added` flag. -/
def opFlags : DiffOp → Bool × Bool
  | .keep => (false, false)
  | .del => (false, true)
  | .ins => (true, false)

/-- Build one coalesced part from an operation and a run length. -/
def mkPart (o : DiffOp) (n : Nat) : DiffPart :=
  ⟨(opFlags o).1, (opFlags o).2, n⟩

/-- Coalesce a run of identical operations into maximal parts; `cur` is the
operation of the run being accumulated and `n` its length so far. -/
def groupRun : DiffOp → Nat → List DiffOp → List DiffPart
  | cur, n, [] => [mkPart cur n]
  | cur, n, o :: os =>
    if o = cur then groupRun cur (n + 1) os else mkPart cur n :: groupRun o 1 os

/-- Modelled from the spec: the part list returned by the external `diffLines`
call at `repos.ts` line 257 — maximal same-kind runs of the line alignment. -/
def diffParts (before after : List String) : List DiffPart :=
  match diffOps before after with
  | [] => []
  | o :: os => groupRun o 1 os

/-- Region record pushed by the source loop (`repos.ts` lines 247-253):
a kind string (`"added"` or `"removed"`) plus half-open index ranges into the
before and after line sequences. -/
structure DiffRegion where
  type : String
  beforeStart : Nat
  beforeEnd : Nat
  afterStart : Nat
  afterEnd : Nat
deriving DecidableEq, Repr

/-- The region-construction loop of `repos.ts` lines 258-285: walks the part
list keeping a cursor in each coordinate space, pushes a region for each added
or removed part, and silently advances both cursors over unchanged parts. -/
def regionsLoop : List DiffPart → Nat → Nat → List DiffRegion
  | [], _, _ => []
  | p :: ps, bIdx, aIdx =>
    if p.added then
      ⟨"added", bIdx, bIdx, aIdx, aIdx + p.count⟩ :: regionsLoop ps bIdx (aIdx + p.count)
    else if p.removed then
      ⟨"removed", bIdx, bIdx + p.count, aIdx, aIdx⟩ :: regionsLoop ps (bIdx + p.count) aIdx
    else
      regionsLoop ps (bIdx + p.count) (aIdx + p.count)

/-- Region classification of two line sequences: the `diffRegions` list built
by `repos.ts` lines 255-286. -/
def classify (before after : List String) : List DiffRegion :=
  regionsLoop (diffParts before after) 0 0

/-- Model of JavaScript `String.prototype.padStart(4)`: left-pad with spaces
to length four. -/
def padStart4 (s : String) : String :=
  if s.length < 4 then String.mk (List.replicate (4 - s.length) ' ') ++ s else s

/-- The `formatLinesWithNumbers` helper of `repos.ts` lines 169-174: prefix
each line with its right-aligned display number and join with line feeds. -/
def fmtLinesNum (ls : List String) (startNum : Int) : String :=
  String.intercalate ("\n")
    (ls.enum.map (fun p => padStart4 (toString (startNum + p.1)) ++ ": " ++ p.2))

/-- Result record of `extractContext`: the three formatted context strings. -/
structure CtxWindow where
  before : String
  changed : String
  after : String

/-- Line-level slices computed by `extractContext` (`repos.ts` lines 165-181)
before formatting: context before the span, the span itself, context after. -/
def extractContextSlices (lines : List String) (start e context : Int) :
    List String × List String × List String :=
  let beforeStart := max 0 (start - context)
  let afterEnd := min (lines.length : Int) (e + context)
  (jsSlice lines beforeStart start, jsSlice lines start e, jsSlice lines e afterEnd)

/-- The `extractContext` helper of `repos.ts` lines 165-181, slices formatted
with display line numbers starting at `startLineNumber` plus slice offset. -/
def extractContext (lines : List String) (start e context startLineNumber : Int) :
    CtxWindow :=
  let beforeStart := max 0 (start - context)
  let s := extractContextSlices lines start e context
  ⟨fmtLinesNum s.1 (startLineNumber + beforeStart),
   fmtLinesNum s.2.1 (startLineNumber + start),
   fmtLinesNum s.2.2 (startLineNumber + e)⟩

/-- The no-difference fallback of `repos.ts` lines 288-305: when the region
list is empty, render the first fifty lines of each full sequence (the header
text announces the count actually shown). -/
def noDiffFallback (beforeLines afterLines : List String) : String :=
  (if 0 < beforeLines.length then
      "### Before (first " ++ toString (min 50 beforeLines.length) ++ " lines)\n\n" ++
      "```diff\n" ++ fmtLinesNum (jsSlice beforeLines 0 50) 1 ++ "\n```\n"
    else "") ++
  (if 0 < afterLines.length then
      "\n### After (first " ++ toString (min 50 afterLines.length) ++ " lines)\n\n" ++
      "```diff\n" ++ fmtLinesNum (jsSlice afterLines 0 50) 1 ++ "\n```\n"
    else "")

/-- One context block of a region section (`repos.ts` lines 311-318 and
322-329): emitted only when at least one of the three parts is non-empty,
mirroring JavaScript string truthiness. -/
def ctxBlock (label : String) (w : CtxWindow) : String :=
  if w.before ≠ "" ∨ w.changed ≠ "" ∨ w.after ≠ "" then
    label ++ "```diff\n" ++
    (if w.before ≠ "" then w.before ++ "\n" else "") ++
    (if w.changed ≠ "" then w.changed ++ "\n" else "") ++
    (if w.after ≠ "" then w.after ++ "\n" else "") ++
    "```\n"
  else ""

/-- One region section of the content rendering (`repos.ts` lines 307-330). -/
def regionBlock (beforeLines afterLines : List String) (r : DiffRegion) : String :=
  "### Diff Region (" ++ r.type ++ ") - Lines " ++ toString (r.beforeStart + 1) ++ "-" ++
    toString r.beforeEnd ++ " → " ++ toString (r.afterStart + 1) ++ "-" ++
    toString r.afterEnd ++ "\n\n" ++
  ctxBlock ("**Before:**\n\n")
    (extractContext beforeLines (r.beforeStart : Int) (r.beforeEnd : Int) 5 1) ++
  ctxBlock ("\n**After:**\n\n")
    (extractContext afterLines (r.afterStart : Int) (r.afterEnd : Int) 5 1)

/-- The content part of one file section after both contents were obtained
(`repos.ts` lines 244-331): split, classify, then either the no-difference
fallback or one section per region. -/
def contentBlock (beforeContent afterContent : String) : String :=
  let beforeLines := splitLines beforeContent
  let afterLines := splitLines afterContent
  let regions := classify beforeLines afterLines
  if regions.length = 0 then
    noDiffFallback beforeLines afterLines
  else
    String.join (regions.map (regionBlock beforeLines afterLines))

/-- Which of the two per-file content fetches a `getItemContent` call is. -/
inductive FetchKind
  | before
  | after
deriving DecidableEq, Repr

/-- Record of one issued `getItemContent` call: which fetch it is, the file
path requested, and the commit the content is read at. -/
structure FetchCall where
  kind : FetchKind
  path : String
  commit : String
deriving DecidableEq, Repr

/-- One entry of the iteration change list, together with the outcome the
content-fetch collaborator would deliver for each axis (`Except.error` models
a thrown fetch error, `Except.ok` the streamed content; a missing item is
modelled as `Except.ok ""`, matching the source's empty-string defaults). -/
structure FileChange where
  path : Option String
  changeType : Nat
  sourceServerItem : Option String
  beforeFetch : Except String String
  afterFetch : Except String String
deriving Repr

/-- JavaScript truthiness of an optional string: present and non-empty. -/
def optTruthy : Option String → Bool
  | none => false
  | some s => s != ""

/-- Display path of a change (`repos.ts` line 186): the path when truthy,
otherwise the unknown-path placeholder. -/
def pathDisplay (c : FileChange) : String :=
  match c.path with
  | some p => if p = "" then "(unknown path)" else p
  | none => "(unknown path)"

/-- Optional rename line of a file header (`repos.ts` lines 188-190). -/
def renamedNote (c : FileChange) : String :=
  match c.sourceServerItem with
  | some s => if s ≠ "" ∧ c.path ≠ some s then "- **Renamed from:** " ++ s ++ "\n" else ""
  | none => ""

/-- Header of one file section (`repos.ts` lines 186-191). -/
def chHeader (c : FileChange) : String :=
  "## " ++ pathDisplay c ++ "\n" ++
  "- **Change Type:** " ++ toString c.changeType ++ "\n" ++
  renamedNote c ++ "\n"

/-- The guarded content fetches of `repos.ts` lines 195-243: before-content is
fetched at the target commit unless the change type is `1` (the source comments
document `1` as an add), then after-content at the source commit unless the
change type is `2` (documented as a delete); a thrown error aborts the try
block, so a failed before-fetch also suppresses the after-fetch.  Returns the
contents or the error, plus the list of issued calls. -/
def fetchContents (c : FileChange) (targetCommitId sourceCommitId p : String) :
    Except String (String × String) × List FetchCall :=
  if c.changeType ≠ 1 then
    match c.beforeFetch with
    | .error e => (.error e, [⟨.before, p, targetCommitId⟩])
    | .ok bc =>
      if c.changeType ≠ 2 then
        match c.afterFetch with
        | .error e => (.error e, [⟨.before, p, targetCommitId⟩, ⟨.after, p, sourceCommitId⟩])
        | .ok ac => (.ok (bc, ac), [⟨.before, p, targetCommitId⟩, ⟨.after, p, sourceCommitId⟩])
      else (.ok (bc, ""), [⟨.before, p, targetCommitId⟩])
  else
    if c.changeType ≠ 2 then
      match c.afterFetch with
      | .error e => (.error e, [⟨.after, p, sourceCommitId⟩])
      | .ok ac => (.ok ("", ac), [⟨.after, p, sourceCommitId⟩])
    else (.ok ("", ""), [])

/-- One iteration of the rendering loop (`repos.ts` lines 185-334): the file
header, then — when content is requested and the path truthy — either the
inline fetch-error note (the `continue` skips the trailing separator) or the
content block followed by the separator. -/
def processChange (includeContent : Bool) (sourceCommitId targetCommitId : String)
    (c : FileChange) : String × List FetchCall :=
  let header := chHeader c
  if includeContent && optTruthy c.path then
    match c.path with
    | some p =>
      match fetchContents c targetCommitId sourceCommitId p with
      | (.error e, calls) =>
        (header ++ "*Could not retrieve file content: " ++ e ++ "*\n\n", calls)
      | (.ok (bc, ac), calls) => (header ++ contentBlock bc ac ++ "\n---\n", calls)
    | none => (header ++ "\n---\n", [])
  else (header ++ "\n---\n", [])

/-- The rendering loop over the paginated change list (`repos.ts` lines
184-334 append to `markdown` left to right, one iteration per change): the
concatenation, in input order, of every change's rendered section, together
with the issued fetch calls in issue order. -/
def renderLoop (includeContent : Bool) (sourceCommitId targetCommitId : String) :
    List FileChange → String × List FetchCall
  | [] => ("", [])
  | c :: cs =>
    let r := processChange includeContent sourceCommitId targetCommitId c
    let rest := renderLoop includeContent sourceCommitId targetCommitId cs
    (r.1 ++ rest.1, r.2 ++ rest.2)

/-- Result of the tool handler: report text, the error flag of the MCP
response, and the instrumented list of issued content fetches. -/
structure ToolResult where
  text : String
  isError : Bool
  fetches : List FetchCall
deriving DecidableEq, Repr

/-- The commit identifiers carried by one pull-request iteration
(`sourceRefCommit?.commitId` and `targetRefCommit?.commitId`, either level of
which may be absent). -/
structure PrIteration where
  sourceCommitId : Option String
  targetCommitId : Option String
deriving DecidableEq, Repr

/-- The `read_pull_request_file_diffs` handler of `repos.ts` lines 122-338,
with the collaborator responses (iterations, change entries, per-file fetch
outcomes) supplied as data: empty iteration list is an error response, missing
or falsy commit ids are an error response, otherwise the change list is sliced
by `skip`/`top` and rendered. -/
def readPrFileDiffs (iterations : List PrIteration) (changes : List FileChange)
    (skip top : Int) (includeContent : Bool) : ToolResult :=
  match iterations.getLast? with
  | none => ⟨"No iterations found for this pull request.", true, []⟩
  | some latest =>
    match latest.sourceCommitId, latest.targetCommitId with
    | some sc, some tc =>
      if sc = "" ∨ tc = "" then
        ⟨"Could not determine source or target commit IDs for this pull request.", true, []⟩
      else
        let paginated := jsSlice changes skip (skip + top)
        let r := renderLoop includeContent sc tc paginated
        ⟨"# PR File Diffs\n\n" ++ r.1, false, r.2⟩
    | _, _ =>
      ⟨"Could not determine source or target commit IDs for this pull request.", true, []⟩

/-- Reading of the claim phrase "lines in the interval [a, b)": the lines of
the sequence whose (0-based) index lies in that integer interval. -/
def claimWindow (l : List String) (a b : Int) : List String :=
  l.enum.filterMap
    (fun p => if a ≤ (p.1 : Int) ∧ (p.1 : Int) < b then some p.2 else none)

/-- Concatenation of the before-axis index ranges of a region list, used to
state the partition reading of the claim. -/
def regionBeforeCells (rs : List DiffRegion) : List Nat :=
  rs.flatMap (fun r => List.range' r.beforeStart (r.beforeEnd - r.beforeStart))

/-- Number of elementary operations that consume a line of the before
sequence (kept or deleted lines). -/
def opsBefore (ops : List DiffOp) : Nat := ops.countP (fun o => o != DiffOp.ins)

/-- Number of elementary operations that consume a line of the after
sequence (kept or inserted lines). -/
def opsAfter (ops : List DiffOp) : Nat := ops.countP (fun o => o != DiffOp.del)

/-- Number of before-sequence lines a part spans (zero for added parts). -/
def partBefore (p : DiffPart) : Nat := if p.added then 0 else p.count

/-- Number of after-sequence lines a part spans (zero for removed parts). -/
def partAfter (p : DiffPart) : Nat := if p.removed then 0 else p.count

/-- Total number of before-sequence lines spanned by a part list. -/
def partsBefore (ps : List DiffPart) : Nat := (ps.map partBefore).sum

/-- Total number of after-sequence lines spanned by a part list. -/
def partsAfter (ps : List DiffPart) : Nat := (ps.map partAfter).sum

/-- The pair of flags of a part, used to compare the kinds of adjacent
parts. -/
def partFlags (p : DiffPart) : Bool × Bool := (p.added, p.removed)

/-- Well-formedness of a part list as produced by the modelled diff routine:
every part is non-empty and carries at most one flag, and adjacent parts are
of different kinds (maximality of runs). -/
def PartsOk (ps : List DiffPart) : Prop :=
  (∀ p ∈ ps, 1 ≤ p.count ∧ ¬(p.added = true ∧ p.removed = true)) ∧
  List.Chain' (fun p q => partFlags p ≠ partFlags q) ps

/-- Six pairwise distinct lines, used as a concrete document. -/
def demoSix : List String := ["a", "b", "c", "d", "e", "f"]

/-- Fifty-one pairwise distinct lines `L1` … `L51`. -/
def demoLines51 : List String := (List.range 51).map (fun i => "L" ++ toString (i + 1))

/-- A fifty-one-line document joined with line feeds. -/
def demoContent51 : String := String.intercalate ("\n") demoLines51

/-- A changed-file entry whose before and after contents are both the
identical fifty-one-line document. -/
def demoChange51 : FileChange :=
  ⟨some "file.txt", 3, none, .ok demoContent51, .ok demoContent51⟩

/-- A changed-file entry whose before-content fetch fails. -/
def demoFailChange : FileChange := ⟨some "fail.txt", 3, none, .error "boom", .ok "y"⟩

/-- A changed-file entry whose fetches both succeed. -/
def demoOkChange : FileChange := ⟨some "ok.txt", 3, none, .ok "a", .ok "b"⟩

/-- A change list of two hundred and fifty files with distinct paths. -/
def demo250 : List FileChange :=
  (List.range 250).map (fun i => ⟨some ("f" ++ toString i), 3, none, .ok "", .ok ""⟩)

/-- The character-level splitter always returns at least one segment. -/
lemma splitLinesChars_ne_nil (cs : List Char) : splitLinesChars cs ≠ [] := by
  induction cs with
  | nil => simp [splitLinesChars]
  | cons c rest ih =>
    simp only [splitLinesChars]
    cases h : splitLinesChars rest with
    | nil => simp
    | cons l ls =>
      by_cases hc : c = '\n' <;> simp [hc]

/-- Splitting any string on line feeds yields at least one line. -/
lemma splitLines_ne_nil (s : String) : splitLines s ≠ [] := by
  simpa [splitLines] using splitLinesChars_ne_nil s.data

/-- A drop of a take is a contiguous span of the original list. -/
lemma drop_take_span (l : List α) (lo hi : Nat) : (l.take hi).drop lo <:+: l :=
  ⟨(l.take hi).take lo, l.drop hi, by rw [List.take_append_drop, List.take_append_drop]⟩

/-- A JavaScript slice never reads outside the array: it is a contiguous span
of the original list, for arbitrary integer bounds. -/
lemma jsSlice_span (l : List α) (a b : Int) : jsSlice l a b <:+: l := by
  simp only [jsSlice]
  exact drop_take_span l _ _

/-- On natural bounds, a JavaScript slice is the usual take-drop slice. -/
lemma jsSlice_nat (l : List α) (a b : Nat) :
    jsSlice l (a : Int) (b : Int) = (l.take b).drop a := by
  simp only [jsSlice]
  have ha : ¬ ((a : Int) < 0) := by omega
  have hb : ¬ ((b : Int) < 0) := by omega
  rw [if_neg ha, if_neg hb]
  have h1 : (min (a : Int) (l.length : Int)).toNat = min a l.length := by omega
  have h2 : (min (b : Int) (l.length : Int)).toNat = min b l.length := by omega
  rw [h1, h2]
  have h3 : l.take (min b l.length) = l.take b := by
    rcases le_total b l.length with h | h
    · rw [min_eq_left h]
    · rw [min_eq_right h, List.take_length, List.take_of_length_le h]
  rw [h3]
  rcases le_total a l.length with h | h
  · rw [min_eq_left h]
  · rw [min_eq_right h]
    have hlen : (l.take b).length ≤ l.length := by
      simp [List.length_take]
    rw [List.drop_eq_nil_of_le hlen, List.drop_eq_nil_of_le (le_trans hlen h)]

/-- The alignment consumes exactly one kept-or-deleted operation per line of
the before sequence. -/
lemma diffOps_opsBefore (xs ys : List String) : opsBefore (diffOps xs ys) = xs.length := by
  induction xs, ys using diffOps.induct with
  | case1 => simp [diffOps, opsBefore]
  | case2 y ys ih => simp [diffOps, opsBefore, List.countP_cons] at ih ⊢; exact ih
  | case3 x xs ih => simp [diffOps, opsBefore, List.countP_cons] at ih ⊢; exact ih
  | case4 xs y ys ih =>
    simp [diffOps, opsBefore, List.countP_cons] at ih ⊢; exact ih
  | case5 x xs y ys hne hle ih =>
    simp [diffOps, hne, hle, opsBefore, List.countP_cons] at ih ⊢; exact ih
  | case6 x xs y ys hne hnle ih =>
    simp [diffOps, hne, hnle, opsBefore, List.countP_cons] at ih ⊢; exact ih

/-- The alignment consumes exactly one kept-or-inserted operation per line of
the after sequence. -/
lemma diffOps_opsAfter (xs ys : List String) : opsAfter (diffOps xs ys) = ys.length := by
  induction xs, ys using diffOps.induct with
  | case1 => simp [diffOps, opsAfter]
  | case2 y ys ih => simp [diffOps, opsAfter, List.countP_cons] at ih ⊢; exact ih
  | case3 x xs ih => simp [diffOps, opsAfter, List.countP_cons] at ih ⊢; exact ih
  | case4 xs y ys ih =>
    simp [diffOps, opsAfter, List.countP_cons] at ih ⊢; exact ih
  | case5 x xs y ys hne hle ih =>
    simp [diffOps, hne, hle, opsAfter, List.countP_cons] at ih ⊢; exact ih
  | case6 x xs y ys hne hnle ih =>
    simp [diffOps, hne, hnle, opsAfter, List.countP_cons] at ih ⊢; exact ih

/-- Aligning a sequence with itself keeps every line. -/
lemma diffOps_self (xs : List String) : diffOps xs xs = List.replicate xs.length DiffOp.keep := by
  induction xs with
  | nil => simp [diffOps]
  | cons x xs ih => simp [diffOps, ih, List.replicate_succ]

/-- The flags of a built part are the flags of its operation. -/
lemma partFlags_mkPart (o : DiffOp) (n : Nat) : partFlags (mkPart o n) = opFlags o := by
  cases o <;> rfl

/-- Distinct operations have distinct flag pairs. -/
lemma opFlags_injective : ∀ o₁ o₂ : DiffOp, opFlags o₁ = opFlags o₂ → o₁ = o₂ := by
  intro o₁ o₂ h
  cases o₁ <;> cases o₂ <;> simp_all [opFlags]

/-- Grouping preserves the number of before-sequence lines consumed. -/
lemma groupRun_partsBefore (os : List DiffOp) (cur : DiffOp) (n : Nat) :
    partsBefore (groupRun cur n os) =
      (if cur = DiffOp.ins then 0 else n) + opsBefore os := by
  induction os generalizing cur n with
  | nil =>
    cases cur <;> simp [groupRun, partsBefore, partBefore, mkPart, opsBefore, opFlags]
  | cons o os ih =>
    by_cases h : o = cur
    · subst h
      rw [show groupRun o n (o :: os) = groupRun o (n + 1) os by simp [groupRun]]
      rw [ih]
      cases o <;> simp [opsBefore, List.countP_cons] <;> omega
    · rw [show groupRun cur n (o :: os) = mkPart cur n :: groupRun o 1 os by
        simp [groupRun, h]]
      have h2 : partsBefore (mkPart cur n :: groupRun o 1 os) =
          partBefore (mkPart cur n) + partsBefore (groupRun o 1 os) := by
        simp [partsBefore]
      rw [h2, ih]
      cases cur <;> cases o <;>
        simp [partBefore, mkPart, opFlags, opsBefore, List.countP_cons] <;> omega

/-- Grouping preserves the number of after-sequence lines consumed. -/
lemma groupRun_partsAfter (os : List DiffOp) (cur : DiffOp) (n : Nat) :
    partsAfter (groupRun cur n os) =
      (if cur = DiffOp.del then 0 else n) + opsAfter os := by
  induction os generalizing cur n with
  | nil =>
    cases cur <;> simp [groupRun, partsAfter, partAfter, mkPart, opsAfter, opFlags]
  | cons o os ih =>
    by_cases h : o = cur
    · subst h
      rw [show groupRun o n (o :: os) = groupRun o (n + 1) os by simp [groupRun]]
      rw [ih]
      cases o <;> simp [opsAfter, List.countP_cons] <;> omega
    · rw [show groupRun cur n (o :: os) = mkPart cur n :: groupRun o 1 os by
        simp [groupRun, h]]
      have h2 : partsAfter (mkPart cur n :: groupRun o 1 os) =
          partAfter (mkPart cur n) + partsAfter (groupRun o 1 os) := by
        simp [partsAfter]
      rw [h2, ih]
      cases cur <;> cases o <;>
        simp [partAfter, mkPart, opFlags, opsAfter, List.countP_cons] <;> omega

/-- Every grouped part is non-empty and carries at most one flag. -/
lemma groupRun_count (os : List DiffOp) (cur : DiffOp) (n : Nat) (hn : 1 ≤ n) :
    ∀ p ∈ groupRun cur n os, 1 ≤ p.count ∧ ¬(p.added = true ∧ p.removed = true) := by
  induction os generalizing cur n with
  | nil =>
    intro p hp
    simp [groupRun] at hp
    subst hp
    cases cur <;> simp [mkPart, opFlags] <;> omega
  | cons o os ih =>
    intro p hp
    by_cases h : o = cur
    · subst h
      rw [show groupRun o n (o :: os) = groupRun o (n + 1) os by simp [groupRun]] at hp
      exact ih o (n + 1) (by omega) p hp
    · rw [show groupRun cur n (o :: os) = mkPart cur n :: groupRun o 1 os by
        simp [groupRun, h]] at hp
      rcases List.mem_cons.mp hp with hp | hp
      · subst hp; cases cur <;> simp [mkPart, opFlags] <;> omega
      · exact ih o 1 (le_refl 1) p hp

/-- The first grouped part carries the flags of the current run. -/
lemma groupRun_head (os : List DiffOp) (cur : DiffOp) (n : Nat) :
    ∃ m tail, groupRun cur n os = mkPart cur m :: tail := by
  induction os generalizing cur n with
  | nil => exact ⟨n, [], rfl⟩
  | cons o os ih =>
    by_cases h : o = cur
    · subst h
      rw [show groupRun o n (o :: os) = groupRun o (n + 1) os by simp [groupRun]]
      exact ih o (n + 1)
    · exact ⟨n, groupRun o 1 os, by simp [groupRun, h]⟩

/-- Adjacent grouped parts are of different kinds. -/
lemma groupRun_chain (os : List DiffOp) (cur : DiffOp) (n : Nat) :
    List.Chain' (fun p q => partFlags p ≠ partFlags q) (groupRun cur n os) := by
  induction os generalizing cur n with
  | nil => simp [groupRun]
  | cons o os ih =>
    by_cases h : o = cur
    · subst h
      rw [show groupRun o n (o :: os) = groupRun o (n + 1) os by simp [groupRun]]
      exact ih o (n + 1)
    · rw [show groupRun cur n (o :: os) = mkPart cur n :: groupRun o 1 os by
        simp [groupRun, h]]
      obtain ⟨m, tail, he⟩ := groupRun_head os o 1
      rw [he]
      rw [List.chain'_cons]
      constructor
      · rw [partFlags_mkPart, partFlags_mkPart]
        intro hc
        exact h (opFlags_injective o cur hc.symm)
      · rw [← he]
        exact ih o 1

/-- The modelled part list spans exactly the before sequence. -/
lemma diffParts_partsBefore (A B : List String) : partsBefore (diffParts A B) = A.length := by
  have hc := diffOps_opsBefore A B
  unfold diffParts
  cases h : diffOps A B with
  | nil =>
    rw [h] at hc
    simp [opsBefore] at hc
    simp [partsBefore, ← hc]
  | cons o os =>
    rw [h] at hc
    rw [groupRun_partsBefore]
    simp [opsBefore, List.countP_cons] at hc ⊢
    cases o <;> simp at hc ⊢ <;> omega

/-- The modelled part list spans exactly the after sequence. -/
lemma diffParts_partsAfter (A B : List String) : partsAfter (diffParts A B) = B.length := by
  have hc := diffOps_opsAfter A B
  unfold diffParts
  cases h : diffOps A B with
  | nil =>
    rw [h] at hc
    simp [opsAfter] at hc
    simp [partsAfter, ← hc]
  | cons o os =>
    rw [h] at hc
    rw [groupRun_partsAfter]
    simp [opsAfter, List.countP_cons] at hc ⊢
    cases o <;> simp at hc ⊢ <;> omega

/-- The modelled part list is well formed. -/
lemma diffParts_ok (A B : List String) : PartsOk (diffParts A B) := by
  unfold diffParts
  cases diffOps A B with
  | nil => exact ⟨by simp, by simp⟩
  | cons o os => exact ⟨groupRun_count os o 1 (le_refl 1), groupRun_chain os o 1⟩

/-- Grouping a pure run of kept lines yields a single unflagged part. -/
lemma groupRun_keep_replicate (k m : Nat) :
    groupRun DiffOp.keep m (List.replicate k DiffOp.keep) = [mkPart DiffOp.keep (m + k)] := by
  induction k generalizing m with
  | zero => simp [groupRun]
  | succ k ih =>
    rw [List.replicate_succ]
    rw [show groupRun DiffOp.keep m (DiffOp.keep :: List.replicate k DiffOp.keep) =
        groupRun DiffOp.keep (m + 1) (List.replicate k DiffOp.keep) by simp [groupRun]]
    rw [ih]
    have : m + 1 + k = m + (k + 1) := by omega
    rw [this]

/-- Classifying a sequence against itself produces no regions: the single
unchanged part is consumed without pushing anything. -/
lemma classify_self_nil (A : List String) : classify A A = [] := by
  unfold classify diffParts
  rw [diffOps_self]
  cases A with
  | nil => simp [regionsLoop]
  | cons x xs =>
    rw [show List.replicate (x :: xs).length DiffOp.keep =
        DiffOp.keep :: List.replicate xs.length DiffOp.keep by
      simp [List.replicate_succ]]
    show regionsLoop (groupRun DiffOp.keep 1 (List.replicate xs.length DiffOp.keep)) 0 0 = []
    rw [groupRun_keep_replicate]
    simp [regionsLoop, mkPart, opFlags]

/-- Every region produced by the loop lies between the starting cursor and the
cursor advanced over the whole part list, in both coordinate spaces; needs the
at-most-one-flag condition so that each part advances the axis it spans. -/
lemma regionsLoop_bounds (ps : List DiffPart) :
    ∀ (b a : Nat), (∀ p ∈ ps, ¬(p.added = true ∧ p.removed = true)) →
      ∀ r ∈ regionsLoop ps b a,
        b ≤ r.beforeStart ∧ r.beforeStart ≤ r.beforeEnd ∧
          r.beforeEnd ≤ b + partsBefore ps ∧
        a ≤ r.afterStart ∧ r.afterStart ≤ r.afterEnd ∧
          r.afterEnd ≤ a + partsAfter ps := by
  induction ps with
  | nil => intro b a _ r hr; simp [regionsLoop] at hr
  | cons p ps ih =>
    intro b a hflags r hr
    have hftail : ∀ q ∈ ps, ¬(q.added = true ∧ q.removed = true) :=
      fun q hq => hflags q (List.mem_cons_of_mem _ hq)
    have hpb : partsBefore (p :: ps) = partBefore p + partsBefore ps := by
      simp [partsBefore]
    have hpa : partsAfter (p :: ps) = partAfter p + partsAfter ps := by
      simp [partsAfter]
    by_cases hadd : p.added = true
    · have hrem : p.removed = false := by
        cases h : p.removed
        · rfl
        · exact absurd ⟨hadd, h⟩ (hflags p (List.mem_cons_self p ps))
      have epb : partBefore p = 0 := by simp [partBefore, hadd]
      have epa : partAfter p = p.count := by simp [partAfter, hrem]
      rw [show regionsLoop (p :: ps) b a =
          ⟨"added", b, b, a, a + p.count⟩ :: regionsLoop ps b (a + p.count) from by
        simp [regionsLoop, hadd]] at hr
      rcases List.mem_cons.mp hr with hr | hr
      · subst hr
        refine ⟨le_refl b, le_refl b, ?_, le_refl a, ?_, ?_⟩ <;> simp <;> omega
      · obtain ⟨h1, h2, h3, h4, h5, h6⟩ := ih b (a + p.count) hftail r hr
        exact ⟨h1, h2, by omega, by omega, h5, by omega⟩
    · by_cases hrem : p.removed = true
      · have hadd2 : p.added = false := by
          cases h : p.added
          · rfl
          · exact absurd h hadd
        have epb : partBefore p = p.count := by simp [partBefore, hadd2]
        have epa : partAfter p = 0 := by simp [partAfter, hrem]
        rw [show regionsLoop (p :: ps) b a =
            ⟨"removed", b, b + p.count, a, a⟩ :: regionsLoop ps (b + p.count) a from by
          simp [regionsLoop, hadd, hrem]] at hr
        rcases List.mem_cons.mp hr with hr | hr
        · subst hr
          refine ⟨le_refl b, ?_, ?_, le_refl a, le_refl a, ?_⟩ <;> simp <;> omega
        · obtain ⟨h1, h2, h3, h4, h5, h6⟩ := ih (b + p.count) a hftail r hr
          exact ⟨by omega, h2, by omega, h4, h5, by omega⟩
      · have hadd2 : p.added = false := by
          cases h : p.added
          · rfl
          · exact absurd h hadd
        have hrem2 : p.removed = false := by
          cases h : p.removed
          · rfl
          · exact absurd h hrem
        have epb : partBefore p = p.count := by simp [partBefore, hadd2]
        have epa : partAfter p = p.count := by simp [partAfter, hrem2]
        rw [show regionsLoop (p :: ps) b a =
            regionsLoop ps (b + p.count) (a + p.count) from by
          simp [regionsLoop, hadd, hrem]] at hr
        obtain ⟨h1, h2, h3, h4, h5, h6⟩ := ih (b + p.count) (a + p.count) hftail r hr
        exact ⟨by omega, h2, by omega, by omega, h5, by omega⟩

/-- Every region pushed by the loop is an added or a removed region; the loop
never emits an unchanged region. -/
lemma regionsLoop_types (ps : List DiffPart) :
    ∀ (b a : Nat), ∀ r ∈ regionsLoop ps b a, r.type = "added" ∨ r.type = "removed" := by
  induction ps with
  | nil => intro b a r hr; simp [regionsLoop] at hr
  | cons p ps ih =>
    intro b a r hr
    by_cases hadd : p.added = true
    · rw [show regionsLoop (p :: ps) b a =
          ⟨"added", b, b, a, a + p.count⟩ :: regionsLoop ps b (a + p.count) from by
        simp [regionsLoop, hadd]] at hr
      rcases List.mem_cons.mp hr with hr | hr
      · subst hr; exact Or.inl rfl
      · exact ih b (a + p.count) r hr
    · by_cases hrem : p.removed = true
      · rw [show regionsLoop (p :: ps) b a =
            ⟨"removed", b, b + p.count, a, a⟩ :: regionsLoop ps (b + p.count) a from by
          simp [regionsLoop, hadd, hrem]] at hr
        rcases List.mem_cons.mp hr with hr | hr
        · subst hr; exact Or.inr rfl
        · exact ih (b + p.count) a r hr
      · rw [show regionsLoop (p :: ps) b a =
            regionsLoop ps (b + p.count) (a + p.count) from by
          simp [regionsLoop, hadd, hrem]] at hr
        exact ih (b + p.count) (a + p.count) r hr

/-- Dichotomy for the first region the loop emits: either some non-empty
unchanged part advanced both cursors strictly first, or the region starts
exactly at the cursors and is emitted by the first part of the list. -/
lemma regionsLoop_head (ps : List DiffPart) :
    ∀ (b a : Nat), (∀ p ∈ ps, 1 ≤ p.count) →
      ∀ r, (regionsLoop ps b a).head? = some r →
        (b < r.beforeStart ∧ a < r.afterStart) ∨
        (r.beforeStart = b ∧ r.afterStart = a ∧ ∃ q qs, ps = q :: qs ∧
          ((q.added = true ∧ r.type = "added") ∨
           (q.added = false ∧ q.removed = true ∧ r.type = "removed"))) := by
  induction ps with
  | nil => intro b a _ r hr; simp [regionsLoop] at hr
  | cons p ps ih =>
    intro b a hcnt r hr
    by_cases hadd : p.added = true
    · rw [show regionsLoop (p :: ps) b a =
          ⟨"added", b, b, a, a + p.count⟩ :: regionsLoop ps b (a + p.count) from by
        simp [regionsLoop, hadd]] at hr
      simp only [List.head?_cons, Option.some_inj] at hr
      subst hr
      exact Or.inr ⟨rfl, rfl, p, ps, rfl, Or.inl ⟨hadd, rfl⟩⟩
    · by_cases hrem : p.removed = true
      · rw [show regionsLoop (p :: ps) b a =
            ⟨"removed", b, b + p.count, a, a⟩ :: regionsLoop ps (b + p.count) a from by
          simp [regionsLoop, hadd, hrem]] at hr
        simp only [List.head?_cons, Option.some_inj] at hr
        subst hr
        have hadd2 : p.added = false := by
          cases h : p.added
          · rfl
          · exact absurd h hadd
        exact Or.inr ⟨rfl, rfl, p, ps, rfl, Or.inr ⟨hadd2, hrem, rfl⟩⟩
      · rw [show regionsLoop (p :: ps) b a =
            regionsLoop ps (b + p.count) (a + p.count) from by
          simp [regionsLoop, hadd, hrem]] at hr
        have hc : 1 ≤ p.count := hcnt p (List.mem_cons_self p ps)
        have hcnt2 : ∀ q ∈ ps, 1 ≤ q.count :=
          fun q hq => hcnt q (List.mem_cons_of_mem _ hq)
        rcases ih (b + p.count) (a + p.count) hcnt2 r hr with ⟨h1, h2⟩ | ⟨h1, h2, _⟩
        · exact Or.inl ⟨by omega, by omega⟩
        · exact Or.inl ⟨by omega, by omega⟩

/-- Successive regions pushed by the loop are ordered and non-overlapping on
both axes, and two successive regions of the same kind are separated by a
strictly positive unchanged gap on both axes. -/
lemma regionsLoop_chain (ps : List DiffPart) :
    ∀ (b a : Nat), PartsOk ps →
      List.Chain' (fun r r' =>
        (r.beforeEnd ≤ r'.beforeStart ∧ r.afterEnd ≤ r'.afterStart) ∧
        (r.type = r'.type → r.beforeEnd < r'.beforeStart ∧ r.afterEnd < r'.afterStart))
        (regionsLoop ps b a) := by
  induction ps with
  | nil => intro b a _; simp [regionsLoop]
  | cons p ps ih =>
    intro b a hok
    obtain ⟨hcnt, hchain⟩ := hok
    have hoktail : PartsOk ps :=
      ⟨fun q hq => hcnt q (List.mem_cons_of_mem _ hq), hchain.tail⟩
    have hcnt2 : ∀ q ∈ ps, 1 ≤ q.count :=
      fun q hq => (hcnt q (List.mem_cons_of_mem _ hq)).1
    by_cases hadd : p.added = true
    · have hrm : p.removed = false := by
        cases h : p.removed
        · rfl
        · exact absurd ⟨hadd, h⟩ (hcnt p (List.mem_cons_self p ps)).2
      rw [show regionsLoop (p :: ps) b a =
          ⟨"added", b, b, a, a + p.count⟩ :: regionsLoop ps b (a + p.count) from by
        simp [regionsLoop, hadd]]
      rw [List.chain'_cons']
      refine ⟨?_, ih b (a + p.count) hoktail⟩
      intro r' hr'
      dsimp only
      rcases regionsLoop_head ps b (a + p.count) hcnt2 r' hr' with
        ⟨h1, h2⟩ | ⟨h1, h2, q, qs, hqs, hq⟩
      · exact ⟨⟨le_of_lt h1, le_of_lt h2⟩, fun _ => ⟨h1, h2⟩⟩
      · rcases hq with ⟨hqa, hqt⟩ | ⟨hqa, hqr, hqt⟩
        · have hqrm : q.removed = false := by
            cases h : q.removed
            · rfl
            · exact absurd ⟨hqa, h⟩
                (hcnt q (by rw [hqs]; exact List.mem_cons_of_mem _ (List.mem_cons_self q qs))).2
          have : partFlags p ≠ partFlags q := by
            rw [hqs] at hchain
            exact (List.chain'_cons.mp hchain).1
          exact absurd (by simp [partFlags, hadd, hrm, hqa, hqrm]) this
        · refine ⟨⟨le_of_eq h1.symm, le_of_eq h2.symm⟩, fun ht => ?_⟩
          rw [hqt] at ht
          exact absurd ht (by decide)
    · by_cases hrem : p.removed = true
      · have had2 : p.added = false := by
          cases h : p.added
          · rfl
          · exact absurd h hadd
        rw [show regionsLoop (p :: ps) b a =
            ⟨"removed", b, b + p.count, a, a⟩ :: regionsLoop ps (b + p.count) a from by
          simp [regionsLoop, hadd, hrem]]
        rw [List.chain'_cons']
        refine ⟨?_, ih (b + p.count) a hoktail⟩
        intro r' hr'
        dsimp only
        rcases regionsLoop_head ps (b + p.count) a hcnt2 r' hr' with
          ⟨h1, h2⟩ | ⟨h1, h2, q, qs, hqs, hq⟩
        · exact ⟨⟨le_of_lt h1, le_of_lt h2⟩, fun _ => ⟨h1, h2⟩⟩
        · rcases hq with ⟨hqa, hqt⟩ | ⟨hqa, hqr, hqt⟩
          · refine ⟨⟨le_of_eq h1.symm, le_of_eq h2.symm⟩, fun ht => ?_⟩
            rw [hqt] at ht
            exact absurd ht (by decide)
          · have : partFlags p ≠ partFlags q := by
              rw [hqs] at hchain
              exact (List.chain'_cons.mp hchain).1
            exact absurd (by simp [partFlags, had2, hrem, hqa, hqr]) this
      · rw [show regionsLoop (p :: ps) b a =
            regionsLoop ps (b + p.count) (a + p.count) from by
          simp [regionsLoop, hadd, hrem]]
        exact ih (b + p.count) (a + p.count) hoktail

/-- C1 (counterexample): for before `["a", "b"]` and after `["a", "c"]` the
concatenated before-ranges of the produced regions are `[1]`, not `[0, 1]`:
the unchanged first line is omitted, so the region list does not partition
the before coordinate space. -/
theorem c1_counterexample :
    regionBeforeCells (classify ["a", "b"] ["a", "c"]) ≠ List.range 2 := by
  have h : classify ["a", "b"] ["a", "c"] =
      [⟨"removed", 1, 2, 1, 1⟩, ⟨"added", 2, 2, 1, 2⟩] := by
    simp [classify, diffParts, diffOps, lcsLen, groupRun, mkPart, opFlags, regionsLoop]
  rw [h]
  decide

/-- C1 (amended): the ordered region list contains only added and removed
regions; each region's before- and after-ranges are well formed and lie
within `[0, len(before))` resp. `[0, len(after))`, and consecutive regions
are ordered and non-overlapping on both axes — but unchanged spans are
omitted, so the concatenation does not reconstruct the full spaces. -/
theorem c1_regions_ordered_within_bounds (A B : List String) :
    (∀ r ∈ classify A B,
      r.beforeStart ≤ r.beforeEnd ∧ r.beforeEnd ≤ A.length ∧
      r.afterStart ≤ r.afterEnd ∧ r.afterEnd ≤ B.length ∧
      (r.type = "added" ∨ r.type = "removed")) ∧
    List.Chain' (fun r r' => r.beforeEnd ≤ r'.beforeStart ∧ r.afterEnd ≤ r'.afterStart)
      (classify A B) := by
  constructor
  · intro r hr
    simp only [classify] at hr
    have hok := diffParts_ok A B
    obtain ⟨h1, h2, h3, h4, h5, h6⟩ :=
      regionsLoop_bounds (diffParts A B) 0 0 (fun p hp => (hok.1 p hp).2) r hr
    rw [diffParts_partsBefore] at h3
    rw [diffParts_partsAfter] at h6
    exact ⟨h2, by omega, h5, by omega, regionsLoop_types _ 0 0 r hr⟩
  · simp only [classify]
    exact (regionsLoop_chain (diffParts A B) 0 0 (diffParts_ok A B)).imp
      (fun _ _ h => h.1)

/-- C3 (counterexample): classifying the non-empty sequence `["a"]` against
itself yields the empty region list, not exactly one unchanged region. -/
theorem c3_counterexample : (classify ["a"] ["a"]).length ≠ 1 := by
  rw [classify_self_nil]
  decide

/-- C3 (amended): classifying any sequence against itself yields no regions
at all — the whole-document unchanged run is consumed without emitting a
region. -/
theorem c3_classify_self (A : List String) : classify A A = [] :=
  classify_self_nil A

/-- C5 (counterexample): for before `["a", "x", "b"]` and after `["x"]` the
classifier emits two consecutive regions of kind `removed` (separated by the
omitted unchanged line), violating the no-adjacent-same-kind claim. -/
theorem c5_counterexample :
    ¬ List.Chain' (fun r r' => r.type ≠ r'.type) (classify ["a", "x", "b"] ["x"]) := by
  have h : classify ["a", "x", "b"] ["x"] =
      [⟨"removed", 0, 1, 0, 0⟩, ⟨"removed", 2, 3, 1, 1⟩] := by
    simp [classify, diffParts, diffOps, lcsLen, groupRun, mkPart, opFlags, regionsLoop]
  rw [h]
  simp [List.chain'_cons]

/-- C5 (amended): two consecutive emitted regions of the same kind are always
separated by a strictly positive unchanged gap in both coordinate spaces
(consecutive regions that touch each other have different kinds). -/
theorem c5_same_kind_separated (A B : List String) :
    List.Chain' (fun r r' =>
      r.type = r'.type → r.beforeEnd < r'.beforeStart ∧ r.afterEnd < r'.afterStart)
      (classify A B) := by
  simp only [classify]
  exact (regionsLoop_chain (diffParts A B) 0 0 (diffParts_ok A B)).imp
    (fun _ _ h => h.2)

/-- C8 (counterexample): with the six-line document and the integer arguments
`start = -5`, `end = 0`, `contextSize = 5`, the before part of the window is
`["a"]` (JavaScript slice semantics for the negative bound), while the claimed
interval `[max(0, start - contextSize), start) = [0, -5)` contains no lines. -/
theorem c8_counterexample :
    (extractContextSlices demoSix (-5) 0 5).1 ≠
      claimWindow demoSix (max 0 ((-5 : Int) - 5)) (-5) := by
  decide

/-- C8 (amended): for natural `start`, `end`, `contextSize` the window parts
are exactly the claimed intervals — before is `[max(0, start-context), start)`,
changed is `[start, end)`, after is `[end, min(length, end+context))` — and
for arbitrary integer arguments every part is a contiguous span of the line
sequence, so no index outside `[0, length)` is ever read. -/
theorem c8_window_formulas :
    (∀ (l : List String) (s e c : Nat),
      extractContextSlices l (s : Int) (e : Int) (c : Int) =
        ((l.take s).drop (s - c), (l.take e).drop s,
         (l.take (min l.length (e + c))).drop e)) ∧
    (∀ (l : List String) (s e c : Int),
      (extractContextSlices l s e c).1 <:+: l ∧
      (extractContextSlices l s e c).2.1 <:+: l ∧
      (extractContextSlices l s e c).2.2 <:+: l) := by
  constructor
  · intro l s e c
    simp only [extractContextSlices]
    have h1 : max 0 ((s : Int) - (c : Int)) = ((s - c : Nat) : Int) := by omega
    have h2 : min (l.length : Int) ((e : Int) + (c : Int)) =
        ((min l.length (e + c) : Nat) : Int) := by omega
    rw [h1, h2, jsSlice_nat, jsSlice_nat, jsSlice_nat]
  · intro l s e c
    simp only [extractContextSlices]
    exact ⟨jsSlice_span l _ _, jsSlice_span l _ _, jsSlice_span l _ _⟩

/-- C10: splitting any string on line feeds yields at least one line (so the
before and after line sequences are never empty and the fallback's
non-emptiness guards always hold), and the empty content used when a fetch is
skipped becomes the single empty line. -/
theorem c10_split_always_nonempty :
    (∀ s : String, 0 < (splitLines s).length) ∧ splitLines "" = [""] := by
  constructor
  · intro s
    have hne := splitLines_ne_nil s
    cases h : splitLines s with
    | nil => exact absurd h hne
    | cons a l => simp
  · decide

/-- The rendering loop distributes over concatenation of the change list:
each file's section depends on that file alone. -/
lemma renderLoop_append (ic : Bool) (sc tc : String) (xs ys : List FileChange) :
    renderLoop ic sc tc (xs ++ ys) =
      ((renderLoop ic sc tc xs).1 ++ (renderLoop ic sc tc ys).1,
       (renderLoop ic sc tc xs).2 ++ (renderLoop ic sc tc ys).2) := by
  induction xs with
  | nil => simp [renderLoop, String.empty_append]
  | cons c xs ih => simp [renderLoop, ih, String.append_assoc]

/-- C6 (counterexample): with no iterations, the handler's response carries
the error flag, not a success flag. -/
theorem c6_counterexample : (readPrFileDiffs [] [] 0 100 false).isError = true := rfl

/-- C6 (amended): an empty iteration list yields an error response carrying
the no-iterations message, while an empty change list with a valid iteration
yields a success response whose report is the bare header. -/
theorem c6_empty_handling :
    (∀ (cs : List FileChange) (skip top : Int) (ic : Bool),
      readPrFileDiffs [] cs skip top ic =
        ⟨"No iterations found for this pull request.", true, []⟩) ∧
    (∀ (sc tc : String) (skip top : Int) (ic : Bool), sc ≠ "" → tc ≠ "" →
      readPrFileDiffs [⟨some sc, some tc⟩] [] skip top ic =
        ⟨"# PR File Diffs\n\n", false, []⟩) := by
  constructor
  · intro cs skip top ic
    rfl
  · intro sc tc skip top ic hsc htc
    simp [readPrFileDiffs, hsc, htc, jsSlice, renderLoop, String.append_empty]

/-- C6 (witness): concrete instantiation of the amended theorem. -/
theorem c6_witness :
    ("s" : String) ≠ "" ∧ ("t" : String) ≠ "" ∧
    readPrFileDiffs [⟨some "s", some "t"⟩] [] 0 100 false =
      ⟨"# PR File Diffs\n\n", false, []⟩ :=
  ⟨by decide, by decide,
    c6_empty_handling.2 "s" "t" 0 100 false (by decide) (by decide)⟩

/-- C9: on a 250-file change list with `skip = 100` and `top = 50`, the
report is the header followed by the rendering of exactly the files at
positions 101-150 in their original order, and every issued content fetch
comes from that rendering — no fetch for any of the other 200 files. -/
theorem c9_pagination (sc tc : String) (cs : List FileChange)
    (hsc : sc ≠ "") (htc : tc ≠ "") (hlen : cs.length = 250) :
    readPrFileDiffs [⟨some sc, some tc⟩] cs 100 50 true =
      ⟨"# PR File Diffs\n\n" ++ (renderLoop true sc tc ((cs.drop 100).take 50)).1, false,
        (renderLoop true sc tc ((cs.drop 100).take 50)).2⟩ := by
  have hslice : jsSlice cs 100 150 = (cs.drop 100).take 50 := by
    have h := jsSlice_nat cs 100 150
    have h100 : ((100 : Nat) : Int) = (100 : Int) := by norm_num
    have h150 : ((150 : Nat) : Int) = (150 : Int) := by norm_num
    rw [h100, h150] at h
    rw [h, show (150 : ℕ) = 100 + 50 from rfl, List.drop_take]
  simp [readPrFileDiffs, hsc, htc, hslice]

/-- C9 (witness): the theorem applied to a concrete 250-file change list. -/
theorem c9_witness :
    ("s" : String) ≠ "" ∧ ("t" : String) ≠ "" ∧ demo250.length = 250 ∧
    readPrFileDiffs [⟨some "s", some "t"⟩] demo250 100 50 true =
      ⟨"# PR File Diffs\n\n" ++ (renderLoop true "s" "t" ((demo250.drop 100).take 50)).1,
        false, (renderLoop true "s" "t" ((demo250.drop 100).take 50)).2⟩ :=
  ⟨by decide, by decide, by simp [demo250],
    c9_pagination "s" "t" demo250 (by decide) (by decide) (by simp [demo250])⟩

/-- C2: for a file processed with content requested, a truthy path and
successful fetches, the before-content fetch is skipped exactly when the
change type is `1` (an add, per the source's own comments) and the
after-content fetch is skipped exactly when the change type is `2` (a delete,
per the source's own comments); every other change type issues both. -/
theorem c2_fetch_guards (c : FileChange) (p sc tc : String)
    (hp : c.path = some p) (hne : p ≠ "") (bc ac : String)
    (hb : c.beforeFetch = Except.ok bc) (ha : c.afterFetch = Except.ok ac) :
    ((∀ fc ∈ (processChange true sc tc c).2, fc.kind ≠ FetchKind.before) ↔
      c.changeType = 1) ∧
    ((∀ fc ∈ (processChange true sc tc c).2, fc.kind ≠ FetchKind.after) ↔
      c.changeType = 2) := by
  have hcalls : (processChange true sc tc c).2 =
      (if c.changeType = 1 then [] else [⟨FetchKind.before, p, tc⟩]) ++
      (if c.changeType = 2 then [] else [⟨FetchKind.after, p, sc⟩]) := by
    by_cases h1 : c.changeType = 1 <;> by_cases h2 : c.changeType = 2 <;>
      simp [processChange, fetchContents, optTruthy, hp, hne, hb, ha, h1, h2]
  rw [hcalls]
  by_cases h1 : c.changeType = 1 <;> by_cases h2 : c.changeType = 2 <;>
    simp [h1, h2]

/-- C2 (witness): concrete instantiation at an edit-like change type `3`,
for which both fetches are issued. -/
theorem c2_witness :
    demoOkChange.path = some "ok.txt" ∧ ("ok.txt" : String) ≠ "" ∧
    demoOkChange.beforeFetch = Except.ok "a" ∧ demoOkChange.afterFetch = Except.ok "b" ∧
    (((∀ fc ∈ (processChange true "s" "t" demoOkChange).2, fc.kind ≠ FetchKind.before) ↔
        demoOkChange.changeType = 1) ∧
     ((∀ fc ∈ (processChange true "s" "t" demoOkChange).2, fc.kind ≠ FetchKind.after) ↔
        demoOkChange.changeType = 2)) :=
  ⟨rfl, by decide, rfl, rfl,
    c2_fetch_guards demoOkChange "ok.txt" "s" "t" rfl (by decide) "a" "b" rfl rfl⟩

set_option maxRecDepth 4000 in
/-- C7: a failing content fetch for one file replaces only that file's block
with the inline error note (the `continue` drops the trailing separator for
it), every other file before and after is rendered unchanged, and the overall
response is still a success, never an aborted report. -/
theorem c7_fetch_failure_isolated (sc tc : String) (pre post : List FileChange)
    (c : FileChange) (p e : String)
    (hp : c.path = some p) (hne : p ≠ "")
    (hfail : (fetchContents c tc sc p).1 = Except.error e)
    (hsc : sc ≠ "") (htc : tc ≠ "") :
    (renderLoop true sc tc (pre ++ c :: post)).1 =
      (renderLoop true sc tc pre).1 ++
        (chHeader c ++ "*Could not retrieve file content: " ++ e ++ "*\n\n") ++
        (renderLoop true sc tc post).1 ∧
    (readPrFileDiffs [⟨some sc, some tc⟩] (pre ++ c :: post) 0
        (((pre ++ c :: post).length : Nat) : Int) true).isError = false := by
  rcases hfc : fetchContents c tc sc p with ⟨res, calls⟩
  rw [hfc] at hfail
  simp only at hfail
  subst hfail
  have hbne : (p != "") = true := by simpa using hne
  have hproc : (processChange true sc tc c).1 =
      chHeader c ++ "*Could not retrieve file content: " ++ e ++ "*\n\n" := by
    simp only [processChange]
    rw [hp]
    simp [optTruthy, hbne, hfc]
  constructor
  · rw [renderLoop_append]
    rw [show (renderLoop true sc tc (c :: post)).1 =
        (chHeader c ++ "*Could not retrieve file content: " ++ e ++ "*\n\n") ++
          (renderLoop true sc tc post).1 from by
      simp only [renderLoop]
      rw [hproc]]
    simp [String.append_assoc]
  · simp [readPrFileDiffs, hsc, htc]

/-- C7 (witness): one failing file between no predecessor and one successful
successor, with the theorem applied at those concrete inputs. -/
theorem c7_witness :
    demoFailChange.path = some "fail.txt" ∧ ("fail.txt" : String) ≠ "" ∧
    (fetchContents demoFailChange "t" "s" "fail.txt").1 = Except.error "boom" ∧
    ("s" : String) ≠ "" ∧ ("t" : String) ≠ "" ∧
    ((renderLoop true "s" "t" ([] ++ demoFailChange :: [demoOkChange])).1 =
      (renderLoop true "s" "t" []).1 ++
        (chHeader demoFailChange ++ "*Could not retrieve file content: " ++ "boom" ++
          "*\n\n") ++
        (renderLoop true "s" "t" [demoOkChange]).1 ∧
     (readPrFileDiffs [⟨some "s", some "t"⟩] ([] ++ demoFailChange :: [demoOkChange]) 0
        ((([] ++ demoFailChange :: [demoOkChange]).length : Nat) : Int) true).isError =
       false) :=
  ⟨rfl, by decide, rfl, by decide, by decide,
    c7_fetch_failure_isolated "s" "t" [] [demoOkChange] demoFailChange "fail.txt" "boom"
      rfl (by decide) rfl (by decide) (by decide)⟩

/-- The fallback block renders exactly the first fifty lines of each
sequence: the slices in its definition are initial segments. -/
lemma noDiffFallback_take (bs as : List String) :
    noDiffFallback bs as =
      (if 0 < bs.length then
          "### Before (first " ++ toString (min 50 bs.length) ++ " lines)\n\n" ++
          "```diff\n" ++ fmtLinesNum (bs.take 50) 1 ++ "\n```\n"
        else "") ++
      (if 0 < as.length then
          "\n### After (first " ++ toString (min 50 as.length) ++ " lines)\n\n" ++
          "```diff\n" ++ fmtLinesNum (as.take 50) 1 ++ "\n```\n"
        else "") := by
  have hb : jsSlice bs 0 50 = bs.take 50 := by
    have h := jsSlice_nat bs 0 50
    simpa using h
  have ha : jsSlice as 0 50 = as.take 50 := by
    have h := jsSlice_nat as 0 50
    simpa using h
  rw [noDiffFallback, hb, ha]

set_option maxRecDepth 4000 in
/-- C4: evaluation of the code at the failing input — identical 51-line
before/after contents classify to no regions, the rendered block for the file
is the no-difference fallback, that fallback is built from only the first
fifty lines of each sequence, and the last line `L51` — which the claim says
must be shown among the last fifty — is not one of them. -/
theorem c4_fallback_shows_first_only :
    classify (splitLines demoContent51) (splitLines demoContent51) = [] ∧
    (processChange true "s" "t" demoChange51).1 =
      chHeader demoChange51 ++
        noDiffFallback (splitLines demoContent51) (splitLines demoContent51) ++ "\n---\n" ∧
    splitLines demoContent51 = demoLines51 ∧
    noDiffFallback demoLines51 demoLines51 =
      "### Before (first 50 lines)\n\n```diff\n" ++ fmtLinesNum (demoLines51.take 50) 1 ++
        "\n```\n" ++
      ("\n### After (first 50 lines)\n\n```diff\n" ++ fmtLinesNum (demoLines51.take 50) 1 ++
        "\n```\n") ∧
    "L51" ∈ demoLines51 ∧ "L51" ∉ demoLines51.take 50 := by
  have hcl : classify (splitLines demoContent51) (splitLines demoContent51) = [] :=
    classify_self_nil _
  refine ⟨hcl, ?_, ?_, ?_, ?_, ?_⟩
  · simp [processChange, demoChange51, optTruthy, fetchContents, contentBlock, hcl]
  · decide
  · rw [noDiffFallback_take]
    have hlen : demoLines51.length = 51 := by simp [demoLines51]
    rw [hlen]
    norm_num
    rw [show toString (50 : Nat) = "50" from rfl]
    simp [String.append_assoc]
  · decide
  · decide
